import Mathlib

/-!
Verification of the dictionary / word-check logic of the Arabic word game
(`script.js`). Strings are modelled as `List Char`; JavaScript's `trim`,
`split('\n')` and `join('\n')` are modelled explicitly.  The repository ships
two variants of the game script: one enforces the 3-Arabic-character format in
the main check flow (`checkWordEnforcing` below) and one skips that check
(`checkWord` below) and adds a teacher panel with add/import/export and
localStorage persistence.
-/

namespace MotArabe

/-- The set of code points trimmed by JavaScript `String.prototype.trim`
(WhiteSpace and LineTerminator productions). -/
def jsWhitespaceCodes : List Nat :=
  [0x9, 0xA, 0xB, 0xC, 0xD, 0x20, 0xA0, 0x1680,
   0x2000, 0x2001, 0x2002, 0x2003, 0x2004, 0x2005, 0x2006, 0x2007,
   0x2008, 0x2009, 0x200A, 0x2028, 0x2029, 0x202F, 0x205F, 0x3000, 0xFEFF]

/-- Whether a character is whitespace for JavaScript `trim`. -/
def isJsWhitespace (c : Char) : Bool :=
  jsWhitespaceCodes.contains c.toNat

/-- JavaScript `s.trim()`: drop leading and trailing whitespace. -/
def trim (s : List Char) : List Char :=
  ((s.dropWhile isJsWhitespace).reverse.dropWhile isJsWhitespace).reverse

/-- JavaScript `s.split('\n')`.  Always returns at least one (possibly empty)
segment; `""` splits to `[""]`. -/
def splitOnNl : List Char → List (List Char)
  | [] => [[]]
  | c :: rest =>
    if c = '\n' then
      [] :: splitOnNl rest
    else
      match splitOnNl rest with
      | [] => [[c]]
      | t :: ts => (c :: t) :: ts

/-- JavaScript `words.join('\n')` (the serialization used by
`exportDictionary`, line 310 of the teacher-panel variant). -/
def toText : List (List Char) → List Char
  | [] => []
  | [w] => w
  | w :: rest => w ++ '\n' :: toText rest

/-- The parsing rule shared by `initGame`, `handleFileImport` and the spec's
`loadFromText`: `text.trim().split('\n').map(w => w.trim()).filter(w =>
w.length > 0)`. -/
def loadFromText (text : List Char) : List (List Char) :=
  ((splitOnNl (trim text)).map trim).filter (fun w => decide (0 < w.length))

/-- Membership of a code point in the character class of `arabicRegex`
(`/^[ء-ي٠-٩]+$/`). -/
def inArabicRange (c : Char) : Bool :=
  decide ((0x621 ≤ c.toNat ∧ c.toNat ≤ 0x64A) ∨ (0x660 ≤ c.toNat ∧ c.toNat ≤ 0x669))

/-- `arabicRegex.test(word)`: the anchored pattern `[class]+` matches exactly
the non-empty strings all of whose characters are in the class. -/
def arabicRegexTest (s : List Char) : Bool :=
  !s.isEmpty && s.all inArabicRange

/-- `isValidWordFormat` (same in both variants):
`word.length === 3 && arabicRegex.test(word)`. -/
def isValidWordFormat (w : List Char) : Bool :=
  w.length == 3 && arabicRegexTest w

/-- `isWordInDictionary`: `dictionary.includes(word)`. -/
def isWordInDictionary (dict : List (List Char)) (w : List Char) : Bool :=
  dict.contains w

/-- `updateScore`: `score += points`; the parameter is documented as "Points
to add (can be negative)". -/
def updateScore (score points : Int) : Int :=
  score + points

/-- The hardcoded default dictionary of the first script variant
(`predefinedDictionary`, lines 18–23). -/
def predefinedDictionary : List (List Char) :=
  ["كتب".toList, "لعب".toList, "ذهب".toList, "جلس".toList, "فتح".toList,
   "علم".toList, "درس".toList, "قرأ".toList, "نام".toList, "أكل".toList,
   "شرب".toList, "ركض".toList, "سبح".toList, "غنى".toList, "رسم".toList,
   "قصة".toList, "قلم".toList, "كتاب".toList, "مدرسة".toList, "طالب".toList]

/-- Outcome kinds of the main check flow. -/
inductive Outcome
  | empty
  | invalidFormat
  | correct
  | incorrect
deriving DecidableEq

/-- Result of one run of the check flow: the new score, the outcome kind,
and the displayed message. -/
structure CheckOut where
  score : Int
  outcome : Outcome
  message : List Char
deriving DecidableEq

/-- Message shown for empty input. -/
def msgEmptyInput : List Char := "يرجى إدخال كلمة!".toList

/-- Message shown when the format check rejects the word. -/
def msgInvalidFormat : List Char := "الكلمة يجب أن تكون مكونة من 3 أحرف عربية فقط!".toList

/-- The fixed ordered list of encouragement phrases. -/
def encouragementMessages : List (List Char) :=
  ["أحسنت! 🌟".toList, "ممتاز! 👍".toList, "رائع جداً! 🎉".toList,
   "عمل جميل! ✨".toList, "أنت ذكي! 🧠".toList]

/-- Message for a correct word; `rand` models
`Math.floor(Math.random() * encouragementMessages.length)`. -/
def correctMessage (rand : Fin 5) (word : List Char) : List Char :=
  encouragementMessages.getD rand.val [] ++
    " الكلمة \"".toList ++ word ++ "\" صحيحة.".toList

/-- Message for a word that is not in the dictionary. -/
def incorrectMessage (word : List Char) : List Char :=
  "الكلمة \"".toList ++ word ++ "\" غير موجودة في القاموس. حاول مرة أخرى!".toList

/-- `checkWord` of the teacher-panel variant (lines 386-429): trim, reject
empty input, then membership test; the format check is commented out there. -/
def checkWord (dict : List (List Char)) (score : Int) (rawInput : List Char)
    (rand : Fin 5) : CheckOut :=
  let word := trim rawInput
  if word = [] then
    ⟨score, Outcome.empty, msgEmptyInput⟩
  else if isWordInDictionary dict word then
    ⟨updateScore score 1, Outcome.correct, correctMessage rand word⟩
  else
    ⟨score, Outcome.incorrect, incorrectMessage word⟩

/-- `checkWord` of the first script variant (lines 80-123): identical except
that the format check gates the flow. -/
def checkWordEnforcing (dict : List (List Char)) (score : Int)
    (rawInput : List Char) (rand : Fin 5) : CheckOut :=
  let word := trim rawInput
  if word = [] then
    ⟨score, Outcome.empty, msgEmptyInput⟩
  else if !isValidWordFormat word then
    ⟨score, Outcome.invalidFormat, msgInvalidFormat⟩
  else if isWordInDictionary dict word then
    ⟨updateScore score 1, Outcome.correct, correctMessage rand word⟩
  else
    ⟨score, Outcome.incorrect, incorrectMessage word⟩

/-- Result kinds of `addNewWord`. -/
inductive AddResult
  | emptyInput
  | invalidFormat
  | alreadyExists
  | added
deriving DecidableEq

/-- The dictionary mutation of `addNewWord` (lines 266-302), without the
persistence side effect: trim, reject empty input, reject bad format, reject
words already present, otherwise push. -/
def addNewWord (dict : List (List Char)) (rawInput : List Char) :
    List (List Char) × AddResult :=
  let newWord := trim rawInput
  if newWord = [] then (dict, AddResult.emptyInput)
  else if !isValidWordFormat newWord then (dict, AddResult.invalidFormat)
  else if isWordInDictionary dict newWord then (dict, AddResult.alreadyExists)
  else (dict ++ [newWord], AddResult.added)

/-- The mutable state relevant to the claims: the in-memory dictionary, the
persisted blob stored under the key "arabicDictionary" (already decoded),
and the score. -/
structure AppState where
  dictionary : List (List Char)
  storage : Option (List (List Char))
  score : Int
deriving DecidableEq

/-- `addNewWord` with its persistence step.  `saveOk` is false when
`localStorage.setItem` throws; that exception is caught and only logged
(lines 296-301), after the push and the success message. -/
def addNewWordS (st : AppState) (rawInput : List Char) (saveOk : Bool) :
    AppState × AddResult :=
  match addNewWord st.dictionary rawInput with
  | (d, AddResult.added) =>
    ({ st with dictionary := d,
                storage := if saveOk then some d else st.storage },
     AddResult.added)
  | (d, r) => ({ st with dictionary := d }, r)

/-- The `reader.onload` body of `handleFileImport` (lines 354-373): parse,
replace the dictionary, then save.  When `localStorage.setItem` throws
(`saveOk = false`) the catch shows an error instead of the count message,
but the dictionary has already been replaced.  Returns the reported count,
if any. -/
def importDictionaryS (st : AppState) (content : List Char) (saveOk : Bool) :
    AppState × Option Nat :=
  let importedWords := loadFromText content
  if saveOk then
    ({ st with dictionary := importedWords, storage := some importedWords },
     some importedWords.length)
  else
    ({ st with dictionary := importedWords }, none)

/-- `initGame` of the teacher-panel variant (lines 182-206).  `stored` is the
decoded blob under "arabicDictionary" (if any); `fetchResult` is the body of
`words.txt` when the fetch succeeds, `none` when it fails.  Returns the
resulting dictionary and whether the fallback fetch was attempted. -/
def initGame (stored : Option (List (List Char)))
    (fetchResult : Option (List Char)) : List (List Char) × Bool :=
  match stored with
  | some d => (d, false)
  | none =>
    match fetchResult with
    | some text => (loadFromText text, true)
    | none => ([], true)

/-- `initGame` of the first script variant (lines 28-37): the dictionary is
always the hardcoded default set. -/
def initGameV1 : List (List Char) := predefinedDictionary

/-- User-driven events of the teacher-panel variant. -/
inductive Event
  | init (stored : Option (List (List Char))) (fetchResult : Option (List Char))
  | check (rawInput : List Char) (rand : Fin 5)
  | add (rawInput : List Char) (saveOk : Bool)
  | importFile (content : List Char) (saveOk : Bool)

/-- One event step of the application. -/
def step (st : AppState) : Event → AppState
  | Event.init stored fetchResult =>
    { st with dictionary := (initGame stored fetchResult).1 }
  | Event.check rawInput rand =>
    { st with score := (checkWord st.dictionary st.score rawInput rand).score }
  | Event.add rawInput saveOk => (addNewWordS st rawInput saveOk).1
  | Event.importFile content saveOk => (importDictionaryS st content saveOk).1

/-- Run a sequence of events from a state. -/
def run (evs : List Event) (st : AppState) : AppState :=
  evs.foldl step st

/-- Page-load state: `score = 0`, `dictionary = []` (lines 153-155). -/
def initialState : AppState := ⟨[], none, 0⟩


/-! ### Helper lemmas -/

theorem dropWhile_head_false {p : Char → Bool} {l : List Char} {a : Char}
    {t : List Char} (h : List.dropWhile p l = a :: t) : p a = false := by
  have h2 := List.head?_dropWhile_not p l
  rw [h] at h2
  simpa using h2

theorem trim_length_lt {c : Char} {t : List Char}
    (hc : isJsWhitespace c = true) : (trim (c :: t)).length < (c :: t).length := by
  have h1 : (c :: t).dropWhile isJsWhitespace = t.dropWhile isJsWhitespace := by
    simp [List.dropWhile_cons, hc]
  calc (trim (c :: t)).length
      = (((c :: t).dropWhile isJsWhitespace).reverse.dropWhile isJsWhitespace).length := by
        simp [trim]
    _ ≤ ((c :: t).dropWhile isJsWhitespace).reverse.length :=
        (List.dropWhile_suffix _).length_le
    _ = ((c :: t).dropWhile isJsWhitespace).length := by simp
    _ ≤ t.length := by rw [h1]; exact (List.dropWhile_suffix _).length_le
    _ < (c :: t).length := by simp

theorem head_not_ws_of_trim_eq {s : List Char} (h : trim s = s) :
    ∀ c, s.head? = some c → isJsWhitespace c = false := by
  intro c hc
  cases s with
  | nil => simp at hc
  | cons a t =>
    have hac : a = c := by simpa using hc
    subst hac
    by_contra hw
    have hw' : isJsWhitespace a = true := by
      cases hb : isJsWhitespace a with
      | false => exact absurd hb hw
      | true => rfl
    have := trim_length_lt (t := t) hw'
    rw [h] at this
    omega

theorem getLast_not_ws_of_trim_eq {s : List Char} (h : trim s = s) :
    ∀ c, s.getLast? = some c → isJsWhitespace c = false := by
  intro c hc
  have h2 : (s.dropWhile isJsWhitespace).reverse.dropWhile isJsWhitespace
      = s.reverse := by
    have h3 := congrArg List.reverse h
    simpa [trim] using h3
  have h3 : s.reverse.head? = some c := by rw [List.head?_reverse]; exact hc
  cases hr : s.reverse with
  | nil => rw [hr] at h3; simp at h3
  | cons b u =>
    rw [hr] at h3
    have hbc : b = c := by simpa using h3
    subst hbc
    rw [hr] at h2
    exact dropWhile_head_false h2

theorem trim_eq_self {s : List Char}
    (h1 : ∀ c, s.head? = some c → isJsWhitespace c = false)
    (h2 : ∀ c, s.getLast? = some c → isJsWhitespace c = false) :
    trim s = s := by
  cases s with
  | nil => rfl
  | cons a t =>
    have ha : isJsWhitespace a = false := h1 a rfl
    have hd : (a :: t).dropWhile isJsWhitespace = a :: t :=
      List.dropWhile_cons_of_neg (by simp [ha])
    cases hr : (a :: t).reverse with
    | nil => simp at hr
    | cons b u =>
      have hb : (a :: t).getLast? = some b := by
        rw [← List.head?_reverse, hr]; rfl
      have hbw : isJsWhitespace b = false := h2 b hb
      have key : (a :: t).reverse.dropWhile isJsWhitespace = (a :: t).reverse := by
        rw [hr]
        exact List.dropWhile_cons_of_neg (by simp [hbw])
      show ((((a :: t).dropWhile isJsWhitespace).reverse).dropWhile
        isJsWhitespace).reverse = a :: t
      rw [hd, key, List.reverse_reverse]

theorem splitOnNl_ne_nil (s : List Char) : splitOnNl s ≠ [] := by
  induction s with
  | nil => simp [splitOnNl]
  | cons c rest ih =>
    rw [splitOnNl]
    split
    · simp
    · split <;> simp

theorem splitOnNl_no_nl {s : List Char} (h : '\n' ∉ s) : splitOnNl s = [s] := by
  induction s with
  | nil => rfl
  | cons c rest ih =>
    have hc : ¬(c = '\n') := by
      intro e; subst e; exact h (List.mem_cons_self _ _)
    have hrest : '\n' ∉ rest := fun m => h (List.mem_cons_of_mem _ m)
    simp only [splitOnNl, if_neg hc, ih hrest]

theorem splitOnNl_append {w : List Char} (rest : List Char) (h : '\n' ∉ w) :
    splitOnNl (w ++ '\n' :: rest) = w :: splitOnNl rest := by
  induction w with
  | nil => simp [splitOnNl]
  | cons c t ih =>
    have hc : ¬(c = '\n') := by
      intro e; subst e; exact h (List.mem_cons_self _ _)
    have ht : '\n' ∉ t := fun m => h (List.mem_cons_of_mem _ m)
    simp only [List.cons_append, splitOnNl, if_neg hc, List.append_eq, ih ht]

theorem toText_cons_cons (w x : List Char) (xs : List (List Char)) :
    toText (w :: x :: xs) = w ++ '\n' :: toText (x :: xs) := rfl

theorem toText_ne_nil {ws : List (List Char)} (h1 : ws ≠ [])
    (h2 : ∀ w ∈ ws, w ≠ []) : toText ws ≠ [] := by
  cases ws with
  | nil => exact absurd rfl h1
  | cons w rest =>
    cases rest with
    | nil => simpa [toText] using h2 w (List.mem_cons_self _ _)
    | cons x xs => simp [toText_cons_cons]

theorem toText_head? {w : List Char} (rest : List (List Char)) (hw : w ≠ []) :
    (toText (w :: rest)).head? = w.head? := by
  obtain ⟨c, t, rfl⟩ := List.exists_cons_of_ne_nil hw
  cases rest with
  | nil => rfl
  | cons x xs => simp [toText_cons_cons]

theorem toText_getLast? : ∀ ws : List (List Char), ws ≠ [] →
    (∀ w ∈ ws, w ≠ []) → ∃ v ∈ ws, (toText ws).getLast? = v.getLast? := by
  intro ws
  induction ws with
  | nil => intro h1; exact absurd rfl h1
  | cons w rest ih =>
    intro _ h2
    cases rest with
    | nil => exact ⟨w, List.mem_cons_self _ _, by simp [toText]⟩
    | cons x xs =>
      obtain ⟨v, hv, he⟩ :=
        ih (by simp) (fun v hv => h2 v (List.mem_cons_of_mem _ hv))
      refine ⟨v, List.mem_cons_of_mem _ hv, ?_⟩
      have hne : toText (x :: xs) ≠ [] :=
        toText_ne_nil (by simp) (fun v hv => h2 v (List.mem_cons_of_mem _ hv))
      rw [toText_cons_cons, List.getLast?_append_of_ne_nil _ (by simp)]
      have hcons : ('\n' :: toText (x :: xs)) = ['\n'] ++ toText (x :: xs) := rfl
      rw [hcons, List.getLast?_append_of_ne_nil _ hne]
      exact he

theorem splitOnNl_toText : ∀ ws : List (List Char), ws ≠ [] →
    (∀ w ∈ ws, '\n' ∉ w) → splitOnNl (toText ws) = ws := by
  intro ws
  induction ws with
  | nil => intro h; exact absurd rfl h
  | cons w rest ih =>
    intro _ h2
    cases rest with
    | nil => exact splitOnNl_no_nl (h2 w (List.mem_cons_self _ _))
    | cons x xs =>
      rw [toText_cons_cons, splitOnNl_append _ (h2 w (List.mem_cons_self _ _)),
          ih (by simp) (fun v hv => h2 v (List.mem_cons_of_mem _ hv))]

theorem map_trim_id : ∀ ws : List (List Char),
    (∀ w ∈ ws, trim w = w) → ws.map trim = ws := by
  intro ws
  induction ws with
  | nil => intro _; rfl
  | cons w rest ih =>
    intro h
    simp only [List.map_cons, h w (List.mem_cons_self _ _),
      ih (fun v hv => h v (List.mem_cons_of_mem _ hv))]


theorem not_ws_of_inArabicRange {c : Char} (h : inArabicRange c = true) :
    isJsWhitespace c = false := by
  simp only [inArabicRange, decide_eq_true_eq] at h
  cases hb : isJsWhitespace c with
  | false => rfl
  | true =>
    exfalso
    have hm : c.toNat ∈ jsWhitespaceCodes := by
      simpa [isJsWhitespace] using hb
    simp only [jsWhitespaceCodes, List.mem_cons, List.not_mem_nil,
      or_false] at hm
    omega

theorem checkWord_mem {dict : List (List Char)} {sc : Int} {raw : List Char}
    {rand : Fin 5} (hne : ¬(trim raw = []))
    (hc : isWordInDictionary dict (trim raw) = true) :
    checkWord dict sc raw rand =
      ⟨updateScore sc 1, Outcome.correct, correctMessage rand (trim raw)⟩ := by
  simp only [checkWord]
  rw [if_neg hne, if_pos hc]

theorem checkWord_notmem {dict : List (List Char)} {sc : Int}
    {raw : List Char} {rand : Fin 5} (hne : ¬(trim raw = []))
    (hc : isWordInDictionary dict (trim raw) = false) :
    checkWord dict sc raw rand =
      ⟨sc, Outcome.incorrect, incorrectMessage (trim raw)⟩ := by
  simp only [checkWord]
  rw [if_neg hne, if_neg (by simp [hc])]

theorem trim_of_validFormat {w : List Char} (h : isValidWordFormat w = true) :
    trim w = w := by
  have hall : ∀ c ∈ w, inArabicRange c = true := by
    simp only [isValidWordFormat, arabicRegexTest, Bool.and_eq_true] at h
    exact fun c hc => (List.all_eq_true.mp h.2.2) c hc
  apply trim_eq_self
  · intro c hc
    exact not_ws_of_inArabicRange (hall c (List.mem_of_mem_head? hc))
  · intro c hc
    exact not_ws_of_inArabicRange (hall c (List.mem_of_mem_getLast? hc))

/-! ### Claim theorems -/

/-- C1: against any dictionary containing "كتب", checking the input "كتب"
returns the correct outcome and increments the score by exactly 1; any
input whose trimmed form is non-empty and not in the dictionary returns the
incorrect outcome and leaves the score unchanged. -/
theorem checkWord_correct_and_incorrect (dict : List (List Char)) (sc : Int)
    (rand : Fin 5) (raw : List Char) :
    ("كتب".toList ∈ dict →
      (checkWord dict sc "كتب".toList rand).outcome = Outcome.correct ∧
      (checkWord dict sc "كتب".toList rand).score = sc + 1) ∧
    (trim raw ≠ [] → trim raw ∉ dict →
      (checkWord dict sc raw rand).outcome = Outcome.incorrect ∧
      (checkWord dict sc raw rand).score = sc) := by
  constructor
  · intro hmem
    have ht : trim "كتب".toList = "كتب".toList := by decide
    have hne : ¬(trim "كتب".toList = []) := by decide
    have hc : isWordInDictionary dict (trim "كتب".toList) = true := by
      rw [ht]
      simp only [isWordInDictionary]
      simpa using hmem
    rw [checkWord_mem hne hc]
    simp [updateScore]
  · intro h1 h2
    have hc : isWordInDictionary dict (trim raw) = false := by
      simp only [isWordInDictionary]
      simpa using h2
    rw [checkWord_notmem h1 hc]
    exact ⟨rfl, rfl⟩

/-- Witness for C1 at a one-word dictionary, input "كتب" and input "xyz". -/
theorem checkWord_correct_and_incorrect_witness :
    ((checkWord ["كتب".toList] 0 "كتب".toList 0).outcome = Outcome.correct ∧
     (checkWord ["كتب".toList] 0 "كتب".toList 0).score = 0 + 1) ∧
    ((checkWord ["كتب".toList] 5 "xyz".toList 2).outcome = Outcome.incorrect ∧
     (checkWord ["كتب".toList] 5 "xyz".toList 2).score = 5) :=
  ⟨(checkWord_correct_and_incorrect ["كتب".toList] 0 0 "كتب".toList).1 (by decide),
   (checkWord_correct_and_incorrect ["كتب".toList] 5 2 "xyz".toList).2
     (by decide) (by decide)⟩

/-- C2: isValidWordFormat returns true exactly for the strings of exactly 3
characters all lying in U+0621–U+064A or U+0660–U+0669. -/
theorem isValidWordFormat_iff (w : List Char) :
    isValidWordFormat w = true ↔
      (w.length = 3 ∧ ∀ c ∈ w,
        (0x621 ≤ c.toNat ∧ c.toNat ≤ 0x64A) ∨
        (0x660 ≤ c.toNat ∧ c.toNat ≤ 0x669)) := by
  simp only [isValidWordFormat, arabicRegexTest, Bool.and_eq_true, beq_iff_eq,
    Bool.not_eq_true', List.isEmpty_eq_false, ne_eq, List.all_eq_true,
    inArabicRange, decide_eq_true_eq]
  constructor
  · rintro ⟨h3, _, hall⟩
    exact ⟨h3, hall⟩
  · rintro ⟨h3, hall⟩
    refine ⟨h3, ?_, hall⟩
    intro he
    subst he
    simp at h3

/-- Witness for C2 at the word "كتب". -/
theorem isValidWordFormat_iff_witness :
    ("كتب".toList.length = 3 ∧ ∀ c ∈ "كتب".toList,
      (0x621 ≤ c.toNat ∧ c.toNat ≤ 0x64A) ∨
      (0x660 ≤ c.toNat ∧ c.toNat ≤ 0x669)) :=
  (isValidWordFormat_iff "كتب".toList).mp (by decide)

/-- C3 as stated is false: the one-entry sequence whose entry is "a\nb"
(non-empty, not whitespace-only, no leading or trailing whitespace) does not
survive the toText/loadFromText round trip — the embedded newline splits the
entry in two. -/
theorem roundtrip_fails_on_newline_entry :
    (∀ w ∈ [['a', '\n', 'b']], w ≠ [] ∧ trim w ≠ [] ∧ trim w = w) ∧
    loadFromText (toText [['a', '\n', 'b']]) ≠ [['a', '\n', 'b']] := by decide

/-- C3 (amended: entries must additionally contain no newline character):
loadFromText (toText words) = words whenever every entry of words is
non-empty, has no leading or trailing whitespace, and contains no newline. -/
theorem loadFromText_toText_roundtrip (words : List (List Char))
    (h : ∀ w ∈ words, w ≠ [] ∧ trim w = w ∧ '\n' ∉ w) :
    loadFromText (toText words) = words := by
  cases words with
  | nil => rfl
  | cons w rest =>
    have hne : ∀ v ∈ w :: rest, v ≠ [] := fun v hv => (h v hv).1
    have htr : ∀ v ∈ w :: rest, trim v = v := fun v hv => (h v hv).2.1
    have hnl : ∀ v ∈ w :: rest, '\n' ∉ v := fun v hv => (h v hv).2.2
    have htt : trim (toText (w :: rest)) = toText (w :: rest) := by
      apply trim_eq_self
      · intro c hc
        rw [toText_head? rest (hne w (List.mem_cons_self _ _))] at hc
        exact head_not_ws_of_trim_eq (htr w (List.mem_cons_self _ _)) c hc
      · intro c hc
        obtain ⟨v, hv, he⟩ := toText_getLast? (w :: rest) (by simp) hne
        rw [he] at hc
        exact getLast_not_ws_of_trim_eq (htr v hv) c hc
    unfold loadFromText
    rw [htt, splitOnNl_toText _ (by simp) hnl, map_trim_id _ htr]
    apply List.filter_eq_self.mpr
    intro v hv
    simpa [List.length_pos] using hne v hv

/-- Witness for the amended C3 at the two-entry sequence ["اب", "جد"]. -/
theorem loadFromText_toText_roundtrip_witness :
    loadFromText (toText ["اب".toList, "جد".toList])
      = ["اب".toList, "جد".toList] :=
  loadFromText_toText_roundtrip ["اب".toList, "جد".toList] (by decide)

/-- C4: adding a fresh valid-format word appends it and makes membership
true; adding the same word again fails with alreadyExists and leaves the
dictionary sequence unchanged. -/
theorem addNewWord_then_duplicate (dict : List (List Char)) (w : List Char)
    (hfmt : isValidWordFormat w = true) (hmem : w ∉ dict) :
    addNewWord dict w = (dict ++ [w], AddResult.added) ∧
    isWordInDictionary (dict ++ [w]) w = true ∧
    addNewWord (dict ++ [w]) w = (dict ++ [w], AddResult.alreadyExists) := by
  have htr : trim w = w := trim_of_validFormat hfmt
  have hwne : ¬(w = []) := by
    intro e
    subst e
    simp [isValidWordFormat] at hfmt
  have hcont : isWordInDictionary dict w = false := by
    simp only [isWordInDictionary]
    simpa using hmem
  have hcont2 : isWordInDictionary (dict ++ [w]) w = true := by
    simp only [isWordInDictionary]
    simp
  refine ⟨?_, hcont2, ?_⟩
  · simp [addNewWord, htr, hwne, hfmt, hcont]
  · simp [addNewWord, htr, hwne, hfmt, hcont2]

/-- Witness for C4: adding "كتب" to the empty dictionary, then again. -/
theorem addNewWord_then_duplicate_witness :
    addNewWord [] "كتب".toList = ([] ++ ["كتب".toList], AddResult.added) ∧
    isWordInDictionary ([] ++ ["كتب".toList]) "كتب".toList = true ∧
    addNewWord ([] ++ ["كتب".toList]) "كتب".toList
      = ([] ++ ["كتب".toList], AddResult.alreadyExists) :=
  addNewWord_then_duplicate [] "كتب".toList (by decide) (by decide)


theorem addNewWord_added {dict : List (List Char)} {raw : List Char}
    {d : List (List Char)}
    (h : addNewWord dict raw = (d, AddResult.added)) :
    d = dict ++ [trim raw] := by
  by_cases h1 : trim raw = []
  · simp [addNewWord, h1] at h
  · cases h2 : isValidWordFormat (trim raw) with
    | false => simp [addNewWord, h1, h2] at h
    | true =>
      cases h3 : isWordInDictionary dict (trim raw) with
      | true => simp [addNewWord, h1, h2, h3] at h
      | false =>
        simp [addNewWord, h1, h2, h3] at h
        exact h.symm

theorem addNewWordS_snd (st : AppState) (raw : List Char) (b : Bool) :
    (addNewWordS st raw b).2 = (addNewWord st.dictionary raw).2 := by
  rcases hadd : addNewWord st.dictionary raw with ⟨d, r⟩
  cases r <;> simp [addNewWordS, hadd]

theorem addNewWordS_dict (st : AppState) (raw : List Char) (b : Bool) :
    (addNewWordS st raw b).1.dictionary = (addNewWord st.dictionary raw).1 := by
  rcases hadd : addNewWord st.dictionary raw with ⟨d, r⟩
  cases r <;> simp [addNewWordS, hadd]

/-- C5: importing the file contents "ابج\nبجد\n\n" replaces the whole
dictionary with exactly ["ابج", "بجد"] (the empty lines are dropped) and the
reported imported-word count is 2. -/
theorem importDictionary_drops_empty_lines (st : AppState) :
    (importDictionaryS st "ابج\nبجد\n\n".toList true).1.dictionary
      = ["ابج".toList, "بجد".toList] ∧
    (importDictionaryS st "ابج\nبجد\n\n".toList true).2 = some 2 := by
  have h : loadFromText "ابج\nبجد\n\n".toList
      = ["ابج".toList, "بجد".toList] := by decide
  constructor
  · exact h
  · show some (loadFromText "ابج\nبجد\n\n".toList).length = some 2
    rw [h]
    rfl

/-- C6: a failed persistence write never blocks the in-memory mutation: an
add or import mutates the dictionary exactly as with a successful save; an
add reporting added leaves the word present, and an import always installs
exactly the parsed sequence. -/
theorem persistFailure_keeps_mutation (st : AppState)
    (raw content : List Char) :
    (addNewWordS st raw false).1.dictionary
      = (addNewWordS st raw true).1.dictionary ∧
    ((addNewWordS st raw false).2 = AddResult.added →
      trim raw ∈ (addNewWordS st raw false).1.dictionary) ∧
    (importDictionaryS st content false).1.dictionary = loadFromText content ∧
    (importDictionaryS st content false).1.dictionary
      = (importDictionaryS st content true).1.dictionary := by
  refine ⟨?_, ?_, ?_, ?_⟩
  · rw [addNewWordS_dict, addNewWordS_dict]
  · intro h2
    rw [addNewWordS_snd] at h2
    rcases hadd : addNewWord st.dictionary raw with ⟨d, r⟩
    rw [hadd] at h2
    cases r with
    | emptyInput => exact absurd h2 (by simp)
    | invalidFormat => exact absurd h2 (by simp)
    | alreadyExists => exact absurd h2 (by simp)
    | added =>
      have hd : d = st.dictionary ++ [trim raw] := addNewWord_added hadd
      rw [addNewWordS_dict, hadd]
      simp [hd]
  · simp [importDictionaryS]
  · simp [importDictionaryS]

/-- Witness for C6: adding "كتب" to the empty-dictionary state with a
failing save still leaves the word in the dictionary. -/
theorem persistFailure_keeps_mutation_witness :
    trim "كتب".toList
      ∈ (addNewWordS initialState "كتب".toList false).1.dictionary :=
  (persistFailure_keeps_mutation initialState "كتب".toList []).2.1 (by decide)

/-- C7: at startup a persisted blob takes priority: when present the
dictionary is exactly the blob and the fallback fetch does not happen; only
without a blob is the fallback fetched and parsed line by line (the first
variant instead always uses the hardcoded default set). -/
theorem initGame_blob_priority (stored : Option (List (List Char)))
    (fetchResult : Option (List Char)) :
    (∀ d, stored = some d → initGame stored fetchResult = (d, false)) ∧
    (stored = none → (initGame stored fetchResult).2 = true) ∧
    (∀ t, stored = none → fetchResult = some t →
      (initGame stored fetchResult).1 = loadFromText t) ∧
    initGameV1 = predefinedDictionary := by
  refine ⟨?_, ?_, ?_, rfl⟩
  · intro d hd
    subst hd
    rfl
  · intro hn
    subst hn
    cases fetchResult <;> rfl
  · intro t hn ht
    subst hn
    subst ht
    rfl

/-- Witness for C7 at a concrete blob and a concrete fetched text. -/
theorem initGame_blob_priority_witness :
    initGame (some [['ا']]) (some "اب\nجد".toList) = ([['ا']], false) ∧
    (initGame none (some "اب\nجد".toList)).2 = true ∧
    (initGame none (some "اب\nجد".toList)).1 = loadFromText "اب\nجد".toList :=
  ⟨(initGame_blob_priority (some [['ا']]) (some "اب\nجد".toList)).1 [['ا']] rfl,
   (initGame_blob_priority none (some "اب\nجد".toList)).2.1 rfl,
   (initGame_blob_priority none (some "اب\nجد".toList)).2.2.1
     "اب\nجد".toList rfl rfl⟩

theorem checkWord_score_cases (dict : List (List Char)) (sc : Int)
    (raw : List Char) (rand : Fin 5) :
    ((checkWord dict sc raw rand).outcome = Outcome.correct ∧
      (checkWord dict sc raw rand).score = updateScore sc 1) ∨
    ((checkWord dict sc raw rand).outcome ≠ Outcome.correct ∧
      (checkWord dict sc raw rand).score = sc) := by
  by_cases h1 : trim raw = []
  · right
    constructor <;> simp [checkWord, h1]
  · cases h2 : isWordInDictionary dict (trim raw) with
    | true =>
      left
      rw [checkWord_mem h1 h2]
      exact ⟨rfl, rfl⟩
    | false =>
      right
      rw [checkWord_notmem h1 h2]
      exact ⟨by simp, rfl⟩

theorem step_score (st : AppState) (e : Event) :
    (step st e).score = st.score ∨ (step st e).score = st.score + 1 := by
  cases e with
  | init stored fetchResult => exact Or.inl rfl
  | check raw rand =>
    rcases checkWord_score_cases st.dictionary st.score raw rand with h | h
    · right
      simpa [step, updateScore] using h.2
    · left
      simpa [step] using h.2
  | add raw saveOk =>
    left
    rcases hadd : addNewWord st.dictionary raw with ⟨d, r⟩
    cases r <;> simp [step, addNewWordS, hadd]
  | importFile content saveOk =>
    left
    cases saveOk <;> simp [step, importDictionaryS]

theorem run_score_nonneg (evs : List Event) :
    ∀ st : AppState, 0 ≤ st.score → 0 ≤ (run evs st).score := by
  induction evs with
  | nil => exact fun st h => h
  | cons e rest ih =>
    intro st h
    have h2 := step_score st e
    have h3 : 0 ≤ (step st e).score := by rcases h2 with h2 | h2 <;> omega
    simpa [run, List.foldl_cons] using ih (step st e) h3

/-- C8: the score starts at zero and is never negative in any state
reachable by the event flows; a step changes the score by 0 or exactly +1,
the check flow adds +1 precisely on a correct outcome, and the score-update
API itself accepts arbitrary (also negative) amounts. -/
theorem score_initialized_and_nonneg :
    initialState.score = 0 ∧
    (∀ evs : List Event, 0 ≤ (run evs initialState).score) ∧
    (∀ st : AppState, ∀ e : Event,
      (step st e).score = st.score ∨ (step st e).score = st.score + 1) ∧
    (∀ dict : List (List Char), ∀ sc : Int, ∀ raw : List Char, ∀ rand : Fin 5,
      ((checkWord dict sc raw rand).outcome = Outcome.correct ∧
        (checkWord dict sc raw rand).score = sc + 1) ∨
      ((checkWord dict sc raw rand).outcome ≠ Outcome.correct ∧
        (checkWord dict sc raw rand).score = sc)) ∧
    (∀ sc points : Int, updateScore sc points = sc + points) := by
  refine ⟨rfl, ?_, step_score, ?_, fun _ _ => rfl⟩
  · intro evs
    exact run_score_nonneg evs initialState (by norm_num [initialState])
  · intro dict sc raw rand
    rcases checkWord_score_cases dict sc raw rand with h | h
    · exact Or.inl ⟨h.1, by simpa [updateScore] using h.2⟩
    · exact Or.inr h

/-- C9: the default dictionary entries "كتاب", "مدرسة" and "طالب" are longer
than 3 characters, hence rejected by isValidWordFormat, so the
format-enforcing variant answers invalidFormat — never the correct outcome —
for them, even though they are members of the dictionary. -/
theorem defaults_rejected_by_format : ∀ rand : Fin 5,
    ("كتاب".toList ∈ predefinedDictionary ∧ 3 < "كتاب".toList.length ∧
      isValidWordFormat "كتاب".toList = false ∧
      (checkWordEnforcing predefinedDictionary 0 "كتاب".toList rand).outcome
        = Outcome.invalidFormat ∧
      (checkWordEnforcing predefinedDictionary 0 "كتاب".toList rand).score
        = 0) ∧
    ("مدرسة".toList ∈ predefinedDictionary ∧ 3 < "مدرسة".toList.length ∧
      isValidWordFormat "مدرسة".toList = false ∧
      (checkWordEnforcing predefinedDictionary 0 "مدرسة".toList rand).outcome
        = Outcome.invalidFormat ∧
      (checkWordEnforcing predefinedDictionary 0 "مدرسة".toList rand).score
        = 0) ∧
    ("طالب".toList ∈ predefinedDictionary ∧ 3 < "طالب".toList.length ∧
      isValidWordFormat "طالب".toList = false ∧
      (checkWordEnforcing predefinedDictionary 0 "طالب".toList rand).outcome
        = Outcome.invalidFormat ∧
      (checkWordEnforcing predefinedDictionary 0 "طالب".toList rand).score
        = 0) := by decide

/-- C10: the check flow is deterministic in everything but the encouragement
phrase: two runs on the same input and dictionary state produce the same
outcome kind and the same score, and whenever the outcome is not correct
even the message is identical — the random pick can only influence the
message of a correct outcome. -/
theorem checkWord_rand_irrelevant (dict : List (List Char)) (sc : Int)
    (raw : List Char) (r1 r2 : Fin 5) :
    (checkWord dict sc raw r1).outcome = (checkWord dict sc raw r2).outcome ∧
    (checkWord dict sc raw r1).score = (checkWord dict sc raw r2).score ∧
    ((checkWord dict sc raw r1).outcome ≠ Outcome.correct →
      (checkWord dict sc raw r1).message
        = (checkWord dict sc raw r2).message) := by
  by_cases h1 : trim raw = []
  · refine ⟨?_, ?_, ?_⟩ <;> simp [checkWord, h1]
  · cases h2 : isWordInDictionary dict (trim raw) with
    | true =>
      rw [checkWord_mem h1 h2, checkWord_mem h1 h2]
      exact ⟨rfl, rfl, fun h => absurd rfl h⟩
    | false =>
      rw [checkWord_notmem h1 h2, checkWord_notmem h1 h2]
      exact ⟨rfl, rfl, fun _ => rfl⟩

/-- Witness for C10: for an input with a non-correct outcome even the
messages of two differently-randomized runs agree. -/
theorem checkWord_rand_irrelevant_witness :
    (checkWord [] 0 "اب".toList 0).message
      = (checkWord [] 0 "اب".toList 3).message :=
  (checkWord_rand_irrelevant [] 0 "اب".toList 0 3).2.2 (by decide)


end MotArabe
